import Mathlib

/-!
# Verification of the hymn_pdf_generator repeat-bar layout core

Shallow embedding of the algorithmic core of `hymn_pdf_generator`:

* `LevelAllocator` (`repetition_bar_allocator.py`): greedy assignment of
  nesting levels to repeat ranges,
* `Hymn.adjusted_font_size` (`models.py`): the font-fitting shrink loop,
* `Hymn.count_blank_lines` (`models.py`): blank-line counting over a
  physical-line window,
* `HymnPDFGenerator._build_vertical_lines` (`pdf_elements.py`): the
  coordinate mapper that turns annotated ranges into vertical segments.

Python strings are modelled as Lean `String`s, converted to `List Char`
for structural processing (`str.split`, `str.strip`, `int(...)`).
Python floats are modelled as exact rationals `ℚ`; the font width
oracle `reportlab.pdfbase.pdfmetrics.stringWidth` is an abstract
parameter `w : Line → Nat → ℚ`.  Python exceptions are modelled with
`Except String`.
-/

deriving instance DecidableEq for Except

namespace HymnPdf

/-- One line of text (a Python `str`), as its list of characters. -/
abbrev Line := List Char

/-- Structural model of Python `str.split(sep)` for a one-character
separator: splits at every occurrence of `sep`, keeping empty pieces
(`"".split(sep) = [""]`, `",".split(",") = ["", ""]`). -/
def splitOnChar (sep : Char) : List Char → List (List Char)
  | [] => [[]]
  | c :: cs =>
    let r := splitOnChar sep cs
    if c = sep then [] :: r
    else
      match r with
      | [] => [[c]]
      | g :: gs => (c :: g) :: gs

/-- Value of an all-digit, non-empty character list; `none` otherwise.
Helper for `pyInt`. -/
def digitsVal (cs : List Char) : Option Nat :=
  if cs = [] then none
  else if cs.all Char.isDigit then
    some (cs.foldl (fun n c => 10 * n + (c.toNat - 48)) 0)
  else none

/-- Model of the Python builtin `int(str)` on plain decimal numerals:
surrounding whitespace is stripped, an optional single sign is allowed,
the rest must be one or more digits.  `none` models `ValueError`. -/
def pyInt (cs : List Char) : Option Int :=
  let t := ((cs.dropWhile Char.isWhitespace).reverse.dropWhile Char.isWhitespace).reverse
  match t with
  | '-' :: rest => (digitsVal rest).map (fun n => -(n : Int))
  | '+' :: rest => (digitsVal rest).map (fun n => (n : Int))
  | _ => (digitsVal t).map (fun n => (n : Int))

/-- One annotated range, the dictionary `{'start': …, 'end': …, 'level': …}`
built by `LevelAllocator.get_entries_with_levels`.  The Python key `end`
is a Lean keyword, hence the field names `bstart`/`bend`. -/
structure Entry where
  bstart : Int
  bend : Int
  level : Nat
  deriving DecidableEq

/-- `start, end = map(int, entry.split('-'))` — parsing one `"start-end"`
token.  Python raises `ValueError` both when a piece is not numeric and
when splitting on `'-'` does not yield exactly two pieces; the model
returns `Except.error` in exactly those situations. -/
def parseEntry (entry : Line) : Except String (Int × Int) :=
  match splitOnChar '-' entry with
  | [a, b] =>
    match pyInt a, pyInt b with
    | some x, some y => Except.ok (x, y)
    | _, _ => Except.error "ValueError: invalid literal for int"
  | _ => Except.error "ValueError: wrong number of values to unpack"

/-- The allocator state `self.allocation : Dict[int, int]`, as an
association list; the most recent binding of a key shadows older ones,
which models dictionary overwrite. -/
abbrev Alloc := List (Int × Nat)

/-- Dictionary lookup: `self.allocation[i]` / `i in self.allocation`. -/
def alookup : Alloc → Int → Option Nat
  | [], _ => none
  | (j, v) :: rest, i => if i = j then some v else alookup rest i

/-- `n` consecutive integers starting at `s`. -/
def intRangeAux (s : Int) : Nat → List Int
  | 0 => []
  | n + 1 => s :: intRangeAux (s + 1) n

/-- Python `range(s, e + 1)`: the integers from `s` to `e` inclusive,
empty when `e < s`. -/
def intRange (s e : Int) : List Int :=
  intRangeAux s (e + 1 - s).toNat

/-- `LevelAllocator.get_level`: one more than the maximum level already
allocated to any number of any of the given ranges (`0` when none is
allocated, so the result is then `1`). -/
def get_level (a : Alloc) (ranges : List (Int × Int)) : Nat :=
  (ranges.foldl
    (fun m r =>
      (intRange r.1 r.2).foldl
        (fun m2 i =>
          match alookup a i with
          | some v => max m2 v
          | none => m2)
        m)
    0) + 1

/-- `LevelAllocator._allocate_level_for_entry`: compute the level for the
range `[s, e]` with `get_level` and record it for every number of the
range, returning the level and the updated allocation state. -/
def allocate_level_for_entry (a : Alloc) (s e : Int) : Nat × Alloc :=
  (get_level a [(s, e)],
   (intRange s e).foldl (fun st i => (i, get_level a [(s, e)]) :: st) a)

/-- The allocation loop shared by `allocate_levels` and
`get_entries_with_levels`, on already-parsed ranges: process the ranges
in input order, threading the allocation state. -/
def allocRanges : Alloc → List (Int × Int) → List Nat
  | _, [] => []
  | a, r :: rs =>
    (allocate_level_for_entry a r.1 r.2).1 ::
      allocRanges (allocate_level_for_entry a r.1 r.2).2 rs

/-- The loop of `LevelAllocator.allocate_levels`, over the comma-split
tokens: parse each token, allocate its level, collect the levels; a
parse failure aborts the whole call (the Python version raises). -/
def allocLevelsLoop : Alloc → List Line → Except String (List Nat)
  | _, [] => Except.ok []
  | a, t :: ts =>
    match parseEntry t with
    | Except.error m => Except.error m
    | Except.ok (s, e) =>
      match allocLevelsLoop (allocate_level_for_entry a s e).2 ts with
      | Except.error m => Except.error m
      | Except.ok ls => Except.ok ((allocate_level_for_entry a s e).1 :: ls)

/-- `LevelAllocator.allocate_levels` on a fresh allocator
(`self.allocation = {}`). -/
def allocate_levels (s : String) : Except String (List Nat) :=
  allocLevelsLoop [] (splitOnChar ',' s.data)

/-- The loop of `LevelAllocator.get_entries_with_levels`, collecting the
`{'start', 'end', 'level'}` dictionaries. -/
def entriesLoop : Alloc → List Line → Except String (List Entry)
  | _, [] => Except.ok []
  | a, t :: ts =>
    match parseEntry t with
    | Except.error m => Except.error m
    | Except.ok (s, e) =>
      match entriesLoop (allocate_level_for_entry a s e).2 ts with
      | Except.error m => Except.error m
      | Except.ok es => Except.ok (⟨s, e, (allocate_level_for_entry a s e).1⟩ :: es)

/-- `LevelAllocator.get_entries_with_levels` on a fresh allocator. -/
def get_entries_with_levels (s : String) : Except String (List Entry) :=
  entriesLoop [] (splitOnChar ',' s.data)

/-- The inner `while` loop of `Hymn.adjusted_font_size`:
`while stringWidth(line, font, size) > max_width and size > 6: size -= 1`.
`wl` is the width of the current line as a function of the font size. -/
def shrink (wl : Nat → ℚ) (mw : ℚ) : Nat → Nat
  | 0 => 0
  | s + 1 => if mw < wl (s + 1) ∧ 6 < s + 1 then shrink wl mw s else s + 1

/-- The font-fitting search of `Hymn.adjusted_font_size` with the
maximum width `mw` as a parameter: one shrink pass per line of the text,
the running size carried from line to line and never reset. -/
def fitFont (w : Line → Nat → ℚ) (mw : ℚ) (d : Nat) (text : String) : Nat :=
  (splitOnChar '\n' text.data).foldl (fun fs l => shrink (w l) mw fs) d

/-- `Hymn.adjusted_font_size`: the source computes
`max_width = pagesize[0] - 2 * margin - 14` and then runs the shrink
loop; `w` models `stringWidth(·, self.font_name, ·)` and `d` is
`self.default_body_font_size`. -/
def adjusted_font_size (w : Line → Nat → ℚ) (pagesize0 margin : ℚ) (d : Nat)
    (text : String) : Nat :=
  fitFont w (pagesize0 - 2 * margin - 14) d text

/-- `line.strip()` is falsy iff the line is all whitespace. -/
def isBlankLine (l : Line) : Bool := l.all Char.isWhitespace

/-- The `for i, line in enumerate(lines[start_line:], start=start_line)`
loop of `Hymn.count_blank_lines`: walk the physical lines, counting
non-blank ones in `nb`, and return the physical index at which the
count first exceeds `endLine` (the `break`), or the last physical index
when it never does; the fourth argument is the incoming `actual_end`,
returned when the slice is empty. -/
def walkEnd (endLine : Int) : List Line → Nat → Nat → Nat → Nat
  | [], _, _, ae => ae
  | l :: ls, i, nb, _ =>
    let nb2 := if isBlankLine l then nb else nb + 1
    if endLine < (nb2 : Int) then i else walkEnd endLine ls (i + 1) nb2 i

/-- `Hymn.count_blank_lines(start_line, end_line)`: find `actual_end`
with the walk above, then count the blank lines of the physical slice
`lines[start_line : actual_end + 1]`. -/
def count_blank_lines (text : String) (start_line : Nat) (end_line : Int) : Nat :=
  let lines := splitOnChar '\n' text.data
  let actual_end := walkEnd end_line (lines.drop start_line) start_line 0 start_line
  ((lines.drop start_line).take (actual_end + 1 - start_line)).countP
    (fun l => isBlankLine l)

/-- A `VerticalLine` flowable's geometry (its stroke thickness is the
fixed default `0.7` and carries no information). -/
structure Segment where
  x : ℚ
  y_start : ℚ
  y_end : ℚ
  deriving DecidableEq

/-- The slice of a `Hymn` record that `_build_vertical_lines` reads. -/
structure HymnData where
  text : String
  repetitions : Option String

/-- The body of the `for bar in bar_positions:` loop of
`HymnPDFGenerator._build_vertical_lines`, for one annotated range `b`,
given the precomputed `resize_factor` `rf`.  The layout constants are
exactly the source's: `y_padding = -8 + resize(-4)`,
`x_bars_distance = resize(6)`, `one_line = resize(7)`,
`one_blank_line = resize(8.5)`, `between_lines = resize(9)`. -/
def segmentOfBar (text : String) (rf : ℚ) (b : Entry) : Segment :=
  let y_padding : ℚ := -8 + (-4 * rf)
  let x_bars_distance : ℚ := 6 * rf
  let one_line : ℚ := 7 * rf
  let one_blank_line : ℚ := 8.5 * rf
  let between_lines : ℚ := 9 * rf
  let start : Int := b.bstart - 1
  let endl : Int := b.bend - 1
  let blanks_before : Nat := count_blank_lines text 0 start
  let blanks_up_to_end : Nat := count_blank_lines text 0 endl
  { x := -((b.level : ℚ) * x_bars_distance)
    y_start := y_padding
      - ((start : ℚ) * one_line + (start : ℚ) * between_lines)
      - ((blanks_before : ℚ) * one_blank_line)
    y_end := y_padding
      - (((endl : ℚ) + 1) * one_line + (endl : ℚ) * between_lines)
      - ((blanks_up_to_end : ℚ) * one_blank_line) }

/-- `resize_factor = hymn.adjusted_font_size / self.default_body_font_size`. -/
def resize_factor (w : Line → Nat → ℚ) (pagesize0 margin : ℚ) (d : Nat)
    (text : String) : ℚ :=
  (adjusted_font_size w pagesize0 margin d text : ℚ) / (d : ℚ)

/-- `HymnPDFGenerator._build_vertical_lines`.  The source calls
`allocator.get_entries_with_levels(hymn.repetitions)` unconditionally;
when `repetitions` is `None`, Python evaluates `None.split(',')` inside
that call and raises `AttributeError`, which the model returns as an
`Except.error`.  Otherwise one segment is built per annotated range. -/
def buildVerticalLines (w : Line → Nat → ℚ) (pagesize0 margin : ℚ) (d : Nat)
    (h : HymnData) : Except String (List Segment) :=
  match h.repetitions with
  | none => Except.error "AttributeError: NoneType object has no attribute split"
  | some s =>
    match get_entries_with_levels s with
    | Except.error m => Except.error m
    | Except.ok bars =>
      Except.ok (bars.map (segmentOfBar h.text (resize_factor w pagesize0 margin d h.text)))

/-! ## Lemmas about the level allocator -/

/-- Evaluating the accumulator loop of `get_level`: folding the
max-update over a list of line numbers computes the maximum of the
levels recorded for those lines (`max` with the initial accumulator). -/
lemma foldl_max_lookup (a : Alloc) (l : List Int) : ∀ m : Nat,
    l.foldl
      (fun m2 i =>
        match alookup a i with
        | some v => max m2 v
        | none => m2)
      m
    = max m ((l.filterMap (alookup a)).foldr max 0) := by
  induction l with
  | nil => intro m; simp
  | cons i l ih =>
    intro m
    cases h : alookup a i with
    | none =>
      simp only [List.foldl_cons, List.filterMap_cons, h]
      exact ih m
    | some v =>
      simp only [List.foldl_cons, List.filterMap_cons, h, List.foldr_cons]
      rw [ih (max m v)]
      omega

/-- `get_level` on a single range is one plus the maximum recorded level
over the range. -/
lemma get_level_single (a : Alloc) (s e : Int) :
    get_level a [(s, e)]
      = ((intRange s e).filterMap (alookup a)).foldr max 0 + 1 := by
  simp only [get_level, List.foldl_cons, List.foldl_nil]
  rw [foldl_max_lookup]
  omega

/-- The level returned by `allocate_level_for_entry`. -/
lemma allocate_level_eq (a : Alloc) (s e : Int) :
    (allocate_level_for_entry a s e).1
      = ((intRange s e).filterMap (alookup a)).foldr max 0 + 1 :=
  get_level_single a s e

/-- Membership in `intRangeAux`. -/
lemma mem_intRangeAux : ∀ (n : Nat) (s i : Int),
    i ∈ intRangeAux s n ↔ s ≤ i ∧ i < s + (n : Int) := by
  intro n
  induction n with
  | zero =>
    intro s i
    simp only [intRangeAux, List.not_mem_nil, false_iff]
    omega
  | succ n ih =>
    intro s i
    simp only [intRangeAux, List.mem_cons, ih]
    omega

/-- Membership in the Python `range(s, e + 1)`. -/
lemma mem_intRange {i s e : Int} : i ∈ intRange s e ↔ s ≤ i ∧ i ≤ e := by
  rw [intRange, mem_intRangeAux]
  omega

/-- `range(s, e + 1)` is empty when `e < s`. -/
lemma intRange_nil {s e : Int} (h : e < s) : intRange s e = [] := by
  rw [intRange, (by omega : (e + 1 - s).toNat = 0)]
  rfl

/-- After folding the recording loop of `_allocate_level_for_entry`
over a list of keys, every key of the list (and every key already bound
to the written value) looks up to the written value. -/
lemma record_lookup (l : List Int) : ∀ (st : Alloc) (lv : Nat) (i : Int),
    (i ∈ l ∨ alookup st i = some lv) →
    alookup (l.foldl (fun st2 j => (j, lv) :: st2) st) i = some lv := by
  induction l with
  | nil =>
    intro st lv i h
    rcases h with h | h
    · cases h
    · simpa using h
  | cons j l ih =>
    intro st lv i h
    simp only [List.foldl_cons]
    apply ih
    by_cases hij : i = j
    · right
      simp [alookup, hij]
    · rcases h with hmem | hst
      · rcases List.mem_cons.mp hmem with rfl | h2
        · exact absurd rfl hij
        · exact Or.inl h2
      · right
        simp [alookup, hij, hst]

/-- Keys outside the recorded list are untouched by the recording fold. -/
lemma record_frame (l : List Int) : ∀ (st : Alloc) (lv : Nat) (i : Int),
    i ∉ l →
    alookup (l.foldl (fun st2 j => (j, lv) :: st2) st) i = alookup st i := by
  induction l with
  | nil => intro st lv i _; rfl
  | cons j l ih =>
    intro st lv i h
    simp only [List.foldl_cons]
    rw [ih _ lv i (fun h2 => h (List.mem_cons_of_mem _ h2))]
    have hij : i ≠ j := fun he => h (he ▸ List.mem_cons_self _ _)
    simp [alookup, hij]

/-- Every line of the processed range looks up to the new level in the
updated state. -/
lemma allocate_lookup_mem (a : Alloc) (s e i : Int) (h1 : s ≤ i) (h2 : i ≤ e) :
    alookup (allocate_level_for_entry a s e).2 i
      = some (allocate_level_for_entry a s e).1 :=
  record_lookup _ _ _ _ (Or.inl (mem_intRange.mpr ⟨h1, h2⟩))

/-- Lines outside the processed range keep their binding (or absence). -/
lemma allocate_lookup_frame (a : Alloc) (s e i : Int) (h : i < s ∨ e < i) :
    alookup (allocate_level_for_entry a s e).2 i = alookup a i :=
  record_frame _ _ _ _ (fun hmem => by
    have := mem_intRange.mp hmem
    omega)

/-- A member of a list of naturals is bounded by the fold of `max`. -/
lemma le_foldr_max {v : Nat} : ∀ {l : List Nat}, v ∈ l → v ≤ l.foldr max 0 := by
  intro l
  induction l with
  | nil => intro h; cases h
  | cons x l ih =>
    intro h
    rcases List.mem_cons.mp h with rfl | h2
    · simp only [List.foldr_cons]
      omega
    · have := ih h2
      simp only [List.foldr_cons]
      omega

/-- A level recorded inside the range is strictly below the newly
allocated level. -/
lemma recorded_lt_level (a : Alloc) (s e i : Int) (v : Nat)
    (h1 : s ≤ i) (h2 : i ≤ e) (hv : alookup a i = some v) :
    v < (allocate_level_for_entry a s e).1 := by
  have hmem : v ∈ (intRange s e).filterMap (alookup a) :=
    List.mem_filterMap.mpr ⟨i, mem_intRange.mpr ⟨h1, h2⟩, hv⟩
  have := le_foldr_max hmem
  rw [allocate_level_eq]
  omega

/-- Processing a range never lowers the level recorded at any line. -/
lemma allocate_mono (a : Alloc) (s e i : Int) (v : Nat)
    (hv : alookup a i = some v) :
    ∃ v2, alookup (allocate_level_for_entry a s e).2 i = some v2 ∧ v ≤ v2 := by
  by_cases hin : s ≤ i ∧ i ≤ e
  · exact ⟨_, allocate_lookup_mem a s e i hin.1 hin.2,
      le_of_lt (recorded_lt_level a s e i v hin.1 hin.2 hv)⟩
  · refine ⟨v, ?_, le_refl v⟩
    rw [allocate_lookup_frame a s e i (by omega)]
    exact hv

/-- `allocRanges` emits one level per range. -/
lemma allocRanges_length (rs : List (Int × Int)) :
    ∀ a, (allocRanges a rs).length = rs.length := by
  induction rs with
  | nil => intro a; rfl
  | cons r rs ih => intro a; simp [allocRanges, ih]

/-- If a line is bound to `v` when a tail of ranges starts processing,
every later range containing that line gets a level strictly above `v`. -/
lemma allocRanges_dominates (rs : List (Int × Int)) :
    ∀ (a : Alloc) (i : Int) (v : Nat) (k : Nat),
      alookup a i = some v → k < rs.length →
      (rs.getD k (0, 0)).1 ≤ i → i ≤ (rs.getD k (0, 0)).2 →
      v < (allocRanges a rs).getD k 0 := by
  induction rs with
  | nil =>
    intro a i v k _ hk
    simp at hk
  | cons r rs ih =>
    intro a i v k hv hk h1 h2
    cases k with
    | zero =>
      simp only [List.getD_cons_zero] at h1 h2
      simpa only [allocRanges, List.getD_cons_zero] using
        recorded_lt_level a r.1 r.2 i v h1 h2 hv
    | succ k2 =>
      simp only [List.getD_cons_succ] at h1 h2
      obtain ⟨v2, hv2, hle⟩ := allocate_mono a r.1 r.2 i v hv
      have hk2 : k2 < rs.length := by
        simp only [List.length_cons] at hk
        omega
      have := ih _ i v2 k2 hv2 hk2 h1 h2
      simp only [allocRanges, List.getD_cons_succ]
      omega

/-- Two ranges that share a line, processed in order within one session,
get strictly increasing levels. -/
lemma allocRanges_chain (rs : List (Int × Int)) :
    ∀ (a : Alloc) (j k : Nat), j < k → k < rs.length →
      (∃ i : Int, ((rs.getD j (0, 0)).1 ≤ i ∧ i ≤ (rs.getD j (0, 0)).2) ∧
                  ((rs.getD k (0, 0)).1 ≤ i ∧ i ≤ (rs.getD k (0, 0)).2)) →
      (allocRanges a rs).getD j 0 < (allocRanges a rs).getD k 0 := by
  induction rs with
  | nil =>
    intro a j k _ hk
    simp at hk
  | cons r rs ih =>
    rintro a j k hjk hk ⟨i, hji, hki⟩
    have hk2 : k - 1 < rs.length := by
      simp only [List.length_cons] at hk
      omega
    cases j with
    | zero =>
      cases k with
      | zero => omega
      | succ k2 =>
        simp only [List.getD_cons_zero] at hji
        simp only [List.getD_cons_succ] at hki
        have hrec := allocate_lookup_mem a r.1 r.2 i hji.1 hji.2
        simpa only [allocRanges, List.getD_cons_zero, List.getD_cons_succ] using
          allocRanges_dominates rs _ i _ k2 hrec (by omega) hki.1 hki.2
    | succ j2 =>
      cases k with
      | zero => omega
      | succ k2 =>
        simp only [List.getD_cons_succ] at hji hki
        simpa only [allocRanges, List.getD_cons_succ] using
          ih _ j2 k2 (by omega) (by omega) ⟨i, hji, hki⟩

/-- If some comma-separated token fails to parse, the whole
`allocate_levels` loop returns an error (nothing is emitted). -/
lemma allocLevelsLoop_error (ts : List Line) :
    ∀ a : Alloc, (∃ t ∈ ts, ∃ m, parseEntry t = Except.error m) →
      ∃ m, allocLevelsLoop a ts = Except.error m := by
  induction ts with
  | nil =>
    rintro a ⟨t, ht, _⟩
    cases ht
  | cons t0 ts ih =>
    rintro a ⟨t, ht, m, hm⟩
    cases hp : parseEntry t0 with
    | error m0 => exact ⟨m0, by simp [allocLevelsLoop, hp]⟩
    | ok p =>
      rcases List.mem_cons.mp ht with rfl | hts
      · rw [hp] at hm
        cases hm
      · obtain ⟨m2, hm2⟩ :=
          ih (allocate_level_for_entry a p.1 p.2).2 ⟨t, hts, m, hm⟩
        refine ⟨m2, ?_⟩
        obtain ⟨ps, pe⟩ := p
        simp [allocLevelsLoop, hp, hm2]

/-! ## Claims about the level allocator -/

/-- **C1.** At any point of an allocation session (any allocator state
`a`), `_allocate_level_for_entry` assigns an incoming range `(s, e)` the
level `1 + max(level already recorded for a line in [s, e])` — level `1`
when no line of the range has a recorded level — and then records that
level for every line of `[s, e]`, overwriting any prior binding. -/
theorem claim_C1_level_rule (a : Alloc) (s e : Int) :
    (allocate_level_for_entry a s e).1
        = ((intRange s e).filterMap (alookup a)).foldr max 0 + 1
      ∧ ((∀ i : Int, s ≤ i → i ≤ e → alookup a i = none) →
          (allocate_level_for_entry a s e).1 = 1)
      ∧ (∀ i : Int, s ≤ i → i ≤ e →
          alookup (allocate_level_for_entry a s e).2 i
            = some (allocate_level_for_entry a s e).1) := by
  refine ⟨allocate_level_eq a s e, ?_, fun i h1 h2 => allocate_lookup_mem a s e i h1 h2⟩
  intro hnone
  rw [allocate_level_eq]
  have : (intRange s e).filterMap (alookup a) = [] := by
    rw [List.filterMap_eq_nil_iff]
    intro i hi
    have := mem_intRange.mp hi
    exact hnone i this.1 this.2
  rw [this]
  rfl

/-- Witness for C1 at a concrete state: state `{3 ↦ 5}`, range `[1, 3]`. -/
theorem claim_C1_witness :
    alookup (allocate_level_for_entry [(3, 5)] 1 3).2 2
      = some (allocate_level_for_entry [(3, 5)] 1 3).1 :=
  (claim_C1_level_rule [(3, 5)] 1 3).2.2 2 (by decide) (by decide)

/-- **C10.** Processing one range `(s, e)` changes the allocation state
only inside `[s, e]`: any line outside keeps its recorded level (or its
absence of one). -/
theorem claim_C10_frame (a : Alloc) (s e i : Int) (h : i < s ∨ e < i) :
    alookup (allocate_level_for_entry a s e).2 i = alookup a i :=
  allocate_lookup_frame a s e i h

/-- Witness for C10: line `9` is untouched by processing `[1, 3]`. -/
theorem claim_C10_witness :
    alookup (allocate_level_for_entry [] 1 3).2 9 = alookup [] 9 :=
  claim_C10_frame [] 1 3 9 (Or.inr (by decide))

/-- **C3.** In one session without reset (fresh state, ranges processed
in input order), two ranges that share a line number always receive
different levels; and the input `[(1,2), (3,4)]` shows two ranges
sharing no line number receiving the same level `1`. -/
theorem claim_C3_overlap_distinct :
    (∀ (rs : List (Int × Int)) (j k : Nat), j < k → k < rs.length →
      (∃ i : Int, ((rs.getD j (0, 0)).1 ≤ i ∧ i ≤ (rs.getD j (0, 0)).2) ∧
                  ((rs.getD k (0, 0)).1 ≤ i ∧ i ≤ (rs.getD k (0, 0)).2)) →
      (allocRanges [] rs).getD j 0 ≠ (allocRanges [] rs).getD k 0)
    ∧ allocRanges [] [(1, 2), (3, 4)] = [1, 1]
    ∧ (∀ i : Int, ¬(((1:Int) ≤ i ∧ i ≤ 2) ∧ ((3:Int) ≤ i ∧ i ≤ 4))) := by
  refine ⟨fun rs j k hjk hk hsh =>
    Nat.ne_of_lt (allocRanges_chain rs [] j k hjk hk hsh), by decide, ?_⟩
  intro i h
  omega

/-- Witness for C3: `"1-2,2-3"` — the ranges share line 2, so their
levels (1 and 2) differ. -/
theorem claim_C3_witness :
    (allocRanges [] [(1, 2), (2, 3)]).getD 0 0
      ≠ (allocRanges [] [(1, 2), (2, 3)]).getD 1 0 :=
  claim_C3_overlap_distinct.1 [(1, 2), (2, 3)] 0 1 (by decide) (by decide)
    ⟨2, ⟨by decide, by decide⟩, ⟨by decide, by decide⟩⟩

/-- **C4.** The documented regression fixture:
`allocate_levels("1-2,3-4,1-4,2-3,3-5") = [1, 1, 2, 3, 4]` and
`get_entries_with_levels("1-2,3-4")` assigns levels `[1, 1]`. -/
theorem claim_C4_fixtures :
    allocate_levels "1-2,3-4,1-4,2-3,3-5" = Except.ok [1, 1, 2, 3, 4]
    ∧ get_entries_with_levels "1-2,3-4"
        = Except.ok [⟨1, 2, 1⟩, ⟨3, 4, 1⟩] := by
  exact ⟨by decide, by decide⟩

/-- **C5, counterexample.** The claim says a token whose start exceeds
its end makes parsing raise; but `allocate_levels("4-2")` succeeds and
emits level `1` for that token (Python `range(4, 3)` is simply empty). -/
theorem claim_C5_counterexample :
    allocate_levels "4-2" = Except.ok [1] := by decide

/-- **C5, amended.** Non-numeric tokens and tokens without exactly one
usable separator do fail the whole parse (never skipped silently), but a
well-formed numeric token with `start > end` does not raise: it is
processed as an empty range, always getting level `1` and leaving the
allocation state unchanged. -/
theorem claim_C5_amended :
    (∀ s : String,
        (∃ t ∈ splitOnChar ',' s.data, ∃ m, parseEntry t = Except.error m) →
        ∃ m, allocate_levels s = Except.error m)
    ∧ (∀ (a : Alloc) (s e : Int), e < s →
        allocate_level_for_entry a s e = (1, a))
    ∧ (allocate_levels "x-2").isOk = false
    ∧ (allocate_levels "3").isOk = false := by
  refine ⟨fun s h => allocLevelsLoop_error _ [] h, ?_, by decide, by decide⟩
  intro a s e h
  simp [allocate_level_for_entry, get_level, intRange_nil h]

/-- Witness for C5 (amended): the non-numeric token of `"x-2"` makes the
whole call error, and the inverted range `(4, 2)` yields `(1, a)`. -/
theorem claim_C5_witness :
    (∃ m, allocate_levels "x-2" = Except.error m)
    ∧ allocate_level_for_entry [] 4 2 = (1, []) :=
  ⟨claim_C5_amended.1 "x-2"
      ⟨['x', '-', '2'], by decide,
       "ValueError: invalid literal for int", by decide⟩,
   claim_C5_amended.2.1 [] 4 2 (by decide)⟩

/-! ## Lemmas about the font-fitting search -/

/-- The shrink loop never increases the size. -/
lemma shrink_le (wl : Nat → ℚ) (mw : ℚ) : ∀ s, shrink wl mw s ≤ s := by
  intro s
  induction s with
  | zero => simp [shrink]
  | succ n ih =>
    simp only [shrink]
    split
    · exact le_trans ih (Nat.le_succ n)
    · exact le_refl _

/-- The shrink loop never goes below the floor 6 (when starting at or
above it). -/
lemma shrink_ge6 (wl : Nat → ℚ) (mw : ℚ) : ∀ s, 6 ≤ s → 6 ≤ shrink wl mw s := by
  intro s
  induction s with
  | zero => intro h; omega
  | succ n ih =>
    intro h
    simp only [shrink]
    by_cases hc : mw < wl (n + 1) ∧ 6 < n + 1
    · rw [if_pos hc]
      exact ih (by omega)
    · rw [if_neg hc]
      exact h

/-- The loop's exit condition holds at its result: the result either
fits or is not above the floor. -/
lemma shrink_stop (wl : Nat → ℚ) (mw : ℚ) :
    ∀ s, ¬(mw < wl (shrink wl mw s) ∧ 6 < shrink wl mw s) := by
  intro s
  induction s with
  | zero =>
    simp only [shrink]
    rintro ⟨_, h6⟩
    omega
  | succ n ih =>
    simp only [shrink]
    by_cases hc : mw < wl (n + 1) ∧ 6 < n + 1
    · rw [if_pos hc]
      exact ih
    · rw [if_neg hc]
      exact hc

/-- A size that already fits is returned unchanged. -/
lemma shrink_of_fit (wl : Nat → ℚ) (mw : ℚ) (s : Nat) (h : wl s ≤ mw) :
    shrink wl mw s = s := by
  cases s with
  | zero => rfl
  | succ n =>
    simp only [shrink]
    rw [if_neg]
    rintro ⟨h1, _⟩
    exact absurd h1 (not_lt.mpr h)

/-- Every size the shrink loop passed by (strictly above its result,
at most its start) was too wide and above the floor. -/
lemma shrink_gt (wl : Nat → ℚ) (mw : ℚ) :
    ∀ s t, shrink wl mw s < t → t ≤ s → mw < wl t ∧ 6 < t := by
  intro s
  induction s with
  | zero =>
    intro t h1 h2
    simp only [shrink] at h1
    omega
  | succ n ih =>
    intro t h1 h2
    simp only [shrink] at h1
    by_cases hc : mw < wl (n + 1) ∧ 6 < n + 1
    · rw [if_pos hc] at h1
      rcases eq_or_lt_of_le h2 with rfl | hlt
      · exact hc
      · exact ih t h1 (by omega)
    · rw [if_neg hc] at h1
      omega

/-- The per-line fold never increases the size. -/
lemma ffold_le (w : Line → Nat → ℚ) (mw : ℚ) :
    ∀ (ls : List Line) (c : Nat),
      ls.foldl (fun fs l => shrink (w l) mw fs) c ≤ c := by
  intro ls
  induction ls with
  | nil => intro c; simp
  | cons l ls ih =>
    intro c
    simp only [List.foldl_cons]
    exact le_trans (ih _) (shrink_le _ _ _)

/-- The per-line fold stays at or above the floor 6. -/
lemma ffold_ge6 (w : Line → Nat → ℚ) (mw : ℚ) :
    ∀ (ls : List Line) (c : Nat), 6 ≤ c →
      6 ≤ ls.foldl (fun fs l => shrink (w l) mw fs) c := by
  intro ls
  induction ls with
  | nil => intro c h; simpa using h
  | cons l ls ih =>
    intro c h
    simp only [List.foldl_cons]
    exact ih _ (shrink_ge6 _ _ _ h)

/-- When the fold's result is strictly above the floor, every line fits
at that result (this needs the width to be monotone in the size). -/
lemma ffold_fits (w : Line → Nat → ℚ) (mw : ℚ)
    (hmono : ∀ l s t, s ≤ t → w l s ≤ w l t) :
    ∀ (ls : List Line) (c : Nat),
      6 < ls.foldl (fun fs l => shrink (w l) mw fs) c →
      ∀ l ∈ ls, w l (ls.foldl (fun fs l2 => shrink (w l2) mw fs) c) ≤ mw := by
  intro ls
  induction ls with
  | nil =>
    intro c _ l hl
    cases hl
  | cons l0 ls ih =>
    intro c h l hl
    simp only [List.foldl_cons] at h ⊢
    rcases List.mem_cons.mp hl with rfl | hmem
    · have hr : ls.foldl (fun fs l2 => shrink (w l2) mw fs) (shrink (w l) mw c)
          ≤ shrink (w l) mw c := ffold_le w mw ls _
      have h6 : 6 < shrink (w l) mw c := lt_of_lt_of_le h hr
      have hstop := shrink_stop (w l) mw c
      have hfit : w l (shrink (w l) mw c) ≤ mw := by
        by_contra hbad
        exact hstop ⟨not_le.mp hbad, h6⟩
      exact le_trans (hmono l _ _ hr) hfit
    · exact ih _ h l hmem

/-- If the fold went strictly below `t ≤ c`, some line was too wide at
`t`. -/
lemma ffold_exceed (w : Line → Nat → ℚ) (mw : ℚ) :
    ∀ (ls : List Line) (c t : Nat),
      ls.foldl (fun fs l => shrink (w l) mw fs) c < t → t ≤ c →
      ∃ l ∈ ls, mw < w l t := by
  intro ls
  induction ls with
  | nil =>
    intro c t h1 h2
    simp only [List.foldl_nil] at h1
    omega
  | cons l0 ls ih =>
    intro c t h1 h2
    simp only [List.foldl_cons] at h1
    by_cases hcase : t ≤ shrink (w l0) mw c
    · obtain ⟨l, hl, hw⟩ := ih _ t h1 hcase
      exact ⟨l, List.mem_cons_of_mem _ hl, hw⟩
    · exact ⟨l0, List.mem_cons_self _ _,
        (shrink_gt (w l0) mw c t (not_le.mp hcase) h2).1⟩

/-- When every line fits at the starting size, the fold returns it
unchanged. -/
lemma ffold_all_fit (w : Line → Nat → ℚ) (mw : ℚ) :
    ∀ (ls : List Line) (c : Nat), (∀ l ∈ ls, w l c ≤ mw) →
      ls.foldl (fun fs l => shrink (w l) mw fs) c = c := by
  intro ls
  induction ls with
  | nil => intro c _; rfl
  | cons l0 ls ih =>
    intro c h
    simp only [List.foldl_cons]
    rw [shrink_of_fit (w l0) mw c (h l0 (List.mem_cons_self _ _))]
    exact ih c (fun l hl => h l (List.mem_cons_of_mem _ hl))

/-- When not every line fits at the starting size `d ≥ 6`, the fold
returns the largest size `≤ d` at which every line fits, clamped below
at the floor `6`. -/
lemma ffold_findGreatest (w : Line → Nat → ℚ) (mw : ℚ) (ls : List Line) (d : Nat)
    (hmono : ∀ l s t, s ≤ t → w l s ≤ w l t) (hd : 6 ≤ d)
    (hnot : ¬∀ l ∈ ls, w l d ≤ mw) :
    ls.foldl (fun fs l => shrink (w l) mw fs) d
      = max 6 (Nat.findGreatest (fun s2 => ∀ l ∈ ls, w l s2 ≤ mw) d) := by
  have hFle := ffold_le w mw ls d
  have hF6 := ffold_ge6 w mw ls d hd
  have hub : ∀ t : Nat, t ≤ d → (∀ l ∈ ls, w l t ≤ mw) →
      t ≤ ls.foldl (fun fs l => shrink (w l) mw fs) d := by
    intro t htd hPt
    by_contra hgt
    push_neg at hgt
    have hFd : ls.foldl (fun fs l => shrink (w l) mw fs) d < d :=
      lt_of_lt_of_le hgt htd
    obtain ⟨l, hl, hw⟩ := ffold_exceed w mw ls d
      (ls.foldl (fun fs l => shrink (w l) mw fs) d + 1) (by omega) (by omega)
    exact absurd (le_trans (hmono l _ t (by omega)) (hPt l hl)) (not_le.mpr hw)
  have hFGle : Nat.findGreatest (fun s2 => ∀ l ∈ ls, w l s2 ≤ mw) d
      ≤ ls.foldl (fun fs l => shrink (w l) mw fs) d := by
    rcases Nat.eq_zero_or_pos
        (Nat.findGreatest (fun s2 => ∀ l ∈ ls, w l s2 ≤ mw) d) with h0 | hpos
    · omega
    · have hiff := Nat.findGreatest_eq_iff.1
        (rfl : Nat.findGreatest (fun s2 => ∀ l ∈ ls, w l s2 ≤ mw) d
          = Nat.findGreatest (fun s2 => ∀ l ∈ ls, w l s2 ≤ mw) d)
      exact hub _ (Nat.findGreatest_le d) (hiff.2.1 (by omega))
  have hFle2 : ls.foldl (fun fs l => shrink (w l) mw fs) d
      ≤ max 6 (Nat.findGreatest (fun s2 => ∀ l ∈ ls, w l s2 ≤ mw) d) := by
    by_cases h6 : 6 < ls.foldl (fun fs l => shrink (w l) mw fs) d
    · have hPF := ffold_fits w mw hmono ls d h6
      exact le_trans (Nat.le_findGreatest hFle hPF) (le_max_right _ _)
    · omega
  exact le_antisymm hFle2 (max_le hF6 hFGle)

/-- **C7.** `Hymn.adjusted_font_size` (with `stringWidth` abstracted to
a width function `w` monotone in the font size, and
`max_width = pagesize[0] − 2·margin − 14` as in the source): the result
lies in `[6, default_size]`; it equals `default_size` exactly when every
line fits at `default_size` (in particular for empty text, whose single
empty line fits); otherwise it is the largest size ≤ `default_size` at
which every line fits — the minimum size the widest line forces —
clamped below at the floor `6`. -/
theorem claim_C7_font_fitting (w : Line → Nat → ℚ) (pagesize0 margin : ℚ)
    (d : Nat) (text : String)
    (hmono : ∀ l s t, s ≤ t → w l s ≤ w l t) (hd : 6 ≤ d) :
    (6 ≤ adjusted_font_size w pagesize0 margin d text
      ∧ adjusted_font_size w pagesize0 margin d text ≤ d)
    ∧ ((∀ l ∈ splitOnChar '\n' text.data, w l d ≤ pagesize0 - 2 * margin - 14) →
        adjusted_font_size w pagesize0 margin d text = d)
    ∧ (w [] d ≤ pagesize0 - 2 * margin - 14 →
        adjusted_font_size w pagesize0 margin d "" = d)
    ∧ (¬(∀ l ∈ splitOnChar '\n' text.data, w l d ≤ pagesize0 - 2 * margin - 14) →
        adjusted_font_size w pagesize0 margin d text
          = max 6 (Nat.findGreatest
              (fun s2 => ∀ l ∈ splitOnChar '\n' text.data,
                w l s2 ≤ pagesize0 - 2 * margin - 14) d)) := by
  refine ⟨⟨?_, ?_⟩, ?_, ?_, ?_⟩
  · exact ffold_ge6 w (pagesize0 - 2 * margin - 14) (splitOnChar '\n' text.data) d hd
  · exact ffold_le w (pagesize0 - 2 * margin - 14) (splitOnChar '\n' text.data) d
  · intro hall
    exact ffold_all_fit w (pagesize0 - 2 * margin - 14) (splitOnChar '\n' text.data) d hall
  · intro hfit
    have h0 : adjusted_font_size w pagesize0 margin d ""
        = List.foldl (fun fs l => shrink (w l) (pagesize0 - 2 * margin - 14) fs) d [[]] := rfl
    rw [h0]
    simp only [List.foldl_cons, List.foldl_nil]
    exact shrink_of_fit (w []) (pagesize0 - 2 * margin - 14) d hfit
  · intro hnot
    exact ffold_findGreatest w (pagesize0 - 2 * margin - 14)
      (splitOnChar '\n' text.data) d hmono hd hnot

/-- Witness for C7 at `w(line, size) = |line| · size`, page width 30,
margin 1, default size 14, text `"ab"`. -/
theorem claim_C7_witness :
    6 ≤ adjusted_font_size (fun l s => (l.length : ℚ) * s) 30 1 14 "ab"
      ∧ adjusted_font_size (fun l s => (l.length : ℚ) * s) 30 1 14 "ab" ≤ 14 :=
  (claim_C7_font_fitting (fun l s => (l.length : ℚ) * s) 30 1 14 "ab"
    (fun l s t h =>
      mul_le_mul_of_nonneg_left (by exact_mod_cast h) (by positivity))
    (by decide)).1

/-! ## Lemmas about the blank-line counter -/

/-- The walk never returns an index below the one it starts carrying. -/
lemma walk_ge (e : Int) : ∀ (ls : List Line) (i nb ae : Nat), ae ≤ i →
    ae ≤ walkEnd e ls i nb ae := by
  intro ls
  induction ls with
  | nil =>
    intro i nb ae h
    simp [walkEnd]
  | cons l ls ih =>
    intro i nb ae h
    simp only [walkEnd]
    generalize (if isBlankLine l then nb else nb + 1 : Nat) = nb2
    split
    · exact h
    · exact le_trans h (ih (i + 1) nb2 i (Nat.le_succ i))

/-- The stopping index of the walk is monotone in the window end. -/
lemma walk_mono {e e2 : Int} (h : e ≤ e2) : ∀ (ls : List Line) (i nb ae : Nat),
    walkEnd e ls i nb ae ≤ walkEnd e2 ls i nb ae := by
  intro ls
  induction ls with
  | nil =>
    intro i nb ae
    simp [walkEnd]
  | cons l ls ih =>
    intro i nb ae
    simp only [walkEnd]
    generalize (if isBlankLine l then nb else nb + 1 : Nat) = nb2
    split
    · split
      · exact le_refl i
      · exact walk_ge e2 ls (i + 1) nb2 i (Nat.le_succ i)
    · next h1 =>
      split
      · next h2 => exact absurd (lt_of_le_of_lt h h2) h1
      · exact ih (i + 1) nb2 i

/-- When the count of non-blank lines of the remaining slice never lets
the running count exceed the window end, the walk never breaks and
stops at the last physical index of the slice. -/
lemma walk_no_break (e : Int) : ∀ (ls : List Line) (i nb ae : Nat), ls ≠ [] →
    (nb : Int) + (ls.countP (fun x => !isBlankLine x) : Int) ≤ e →
    walkEnd e ls i nb ae = i + ls.length - 1 := by
  intro ls
  induction ls with
  | nil =>
    intro i nb ae hne
    exact absurd rfl hne
  | cons l ls ih =>
    intro i nb ae _ h
    simp only [List.countP_cons] at h
    have hcont : ¬ e < ((if isBlankLine l then nb else nb + 1 : Nat) : Int) := by
      cases hb : isBlankLine l <;> simp only [hb] at h ⊢ <;> simp at h ⊢ <;> omega
    simp only [walkEnd]
    rw [if_neg hcont]
    cases ls with
    | nil =>
      simp [walkEnd]
    | cons l2 ls2 =>
      rw [ih (i + 1) _ i (by simp) (by
        simp only [List.countP_cons] at h ⊢
        cases hb : isBlankLine l <;> simp only [hb] at h ⊢ <;> simp at h ⊢ <;> omega)]
      simp only [List.length_cons]
      omega

/-- The blank-line count of a window is monotone in the window end. -/
lemma count_blank_mono (text : String) (st : Nat) {e e2 : Int} (h : e ≤ e2) :
    count_blank_lines text st e ≤ count_blank_lines text st e2 := by
  unfold count_blank_lines
  apply List.Sublist.countP_le
  have hw := walk_mono h ((splitOnChar '\n' text.data).drop st) st 0 st
  have hmin : walkEnd e ((splitOnChar '\n' text.data).drop st) st 0 st + 1 - st
      = min (walkEnd e ((splitOnChar '\n' text.data).drop st) st 0 st + 1 - st)
        (walkEnd e2 ((splitOnChar '\n' text.data).drop st) st 0 st + 1 - st) := by
    omega
  rw [hmin, ← List.take_take]
  exact List.take_sublist _ _

/-- **C8.** `Hymn.count_blank_lines`: zero for every window over a text
with no blank lines; `1` for the text `"a\n\nb"` on the window `(0, 1)`;
and when the window end exceeds the number of non-blank lines available
from the start line, the walk stops at the last physical line and the
count of all blank lines from the start line on is returned — a defined
fallback, not an error. -/
theorem claim_C8_blank_count :
    (∀ (text : String) (s : Nat) (e : Int),
        (∀ l ∈ splitOnChar '\n' text.data, isBlankLine l = false) →
        count_blank_lines text s e = 0)
    ∧ count_blank_lines "a\n\nb" 0 1 = 1
    ∧ (∀ (text : String) (s : Nat) (e : Int),
        ((((splitOnChar '\n' text.data).drop s).countP
            (fun l => !isBlankLine l) : Int) < e) →
        count_blank_lines text s e
          = ((splitOnChar '\n' text.data).drop s).countP
              (fun l => isBlankLine l)) := by
  refine ⟨?_, by decide, ?_⟩
  · intro text s e hnb
    unfold count_blank_lines
    rw [List.countP_eq_zero]
    intro l hl
    have hmem : l ∈ splitOnChar '\n' text.data :=
      List.drop_subset _ _ (List.take_subset _ _ hl)
    simp [hnb l hmem]
  · intro text s e h
    simp only [count_blank_lines]
    cases hd : (splitOnChar '\n' text.data).drop s with
    | nil => simp [hd, walkEnd]
    | cons l ls =>
      rw [hd] at h
      rw [walk_no_break e (l :: ls) s 0 s (by simp) (by omega)]
      have hlen : s + (l :: ls).length - 1 + 1 - s = (l :: ls).length := by
        simp only [List.length_cons]
        omega
      rw [hlen, List.take_length]

/-- Witness for C8: a no-blank text, and a window end beyond the text. -/
theorem claim_C8_witness :
    count_blank_lines "ab" 0 0 = 0 ∧ count_blank_lines "a\nb" 0 5 = 0 := by
  constructor
  · exact claim_C8_blank_count.1 "ab" 0 0 (by decide)
  · rw [claim_C8_blank_count.2.2 "a\nb" 0 5 (by decide)]
    decide

/-! ## Lemmas about the coordinate mapper -/

/-- The `x` field emitted for one bar:
`x_position = -(level * x_bars_distance)` with `x_bars_distance = resize(6)`. -/
lemma segmentOfBar_x (text : String) (rf : ℚ) (b : Entry) :
    (segmentOfBar text rf b).x = -((b.level : ℚ) * (6 * rf)) := rfl

/-- The `y_start` field emitted for one bar. -/
lemma segmentOfBar_y_start (text : String) (rf : ℚ) (b : Entry) :
    (segmentOfBar text rf b).y_start
      = (-8 + (-4 * rf))
        - (((b.bstart - 1 : Int) : ℚ) * (7 * rf)
           + ((b.bstart - 1 : Int) : ℚ) * (9 * rf))
        - ((count_blank_lines text 0 (b.bstart - 1) : ℚ) * (8.5 * rf)) := rfl

/-- The `y_end` field emitted for one bar. -/
lemma segmentOfBar_y_end (text : String) (rf : ℚ) (b : Entry) :
    (segmentOfBar text rf b).y_end
      = (-8 + (-4 * rf))
        - ((((b.bend - 1 : Int) : ℚ) + 1) * (7 * rf)
           + ((b.bend - 1 : Int) : ℚ) * (9 * rf))
        - ((count_blank_lines text 0 (b.bend - 1) : ℚ) * (8.5 * rf)) := rfl

/-- Successful path of `_build_vertical_lines`: with a present
repetitions string that parses to `bars`, one segment is emitted per
annotated range. -/
lemma buildVL_ok (w : Line → Nat → ℚ) (pagesize0 margin : ℚ) (d : Nat)
    (h : HymnData) (s : String) (bars : List Entry)
    (hrep : h.repetitions = some s)
    (hbars : get_entries_with_levels s = Except.ok bars) :
    buildVerticalLines w pagesize0 margin d h
      = Except.ok (bars.map
          (segmentOfBar h.text (resize_factor w pagesize0 margin d h.text))) := by
  simp only [buildVerticalLines, hrep, hbars]

/-- `getD` through a `map`, inside the mapped list's length. -/
lemma getD_map_lt (bars : List Entry) (f : Entry → Segment) (j : Nat)
    (hj : j < bars.length) :
    (bars.map f).getD j ⟨0, 0, 0⟩ = f (bars.getD j ⟨0, 0, 0⟩) := by
  rw [List.getD_eq_getElem (bars.map f) ⟨0, 0, 0⟩ (by simpa using hj),
    List.getD_eq_getElem bars ⟨0, 0, 0⟩ hj, List.getElem_map]

/-- The resize factor is positive whenever the default size is at least
the floor 6. -/
lemma resize_factor_pos (w : Line → Nat → ℚ) (pagesize0 margin : ℚ) (d : Nat)
    (text : String) (hd : 6 ≤ d) :
    0 < resize_factor w pagesize0 margin d text := by
  apply div_pos
  · have h6 := ffold_ge6 w (pagesize0 - 2 * margin - 14)
      (splitOnChar '\n' text.data) d hd
    have : (6 : ℚ) ≤ (adjusted_font_size w pagesize0 margin d text : ℚ) := by
      exact_mod_cast h6
    linarith
  · have : (0 : Nat) < d := by omega
    exact_mod_cast this

/-- **C6.** The data model declares `repetitions : Optional[str]` and
the spec says an absent string yields no segments; but the code calls
`hymn.repetitions.split(',')` unconditionally, so a hymn with
`repetitions = None` makes `_build_vertical_lines` raise
`AttributeError` instead of returning an empty list. -/
theorem claim_C6_absent_repetitions (w : Line → Nat → ℚ)
    (pagesize0 margin : ℚ) (d : Nat) (text : String) :
    buildVerticalLines w pagesize0 margin d ⟨text, none⟩
      = Except.error "AttributeError: NoneType object has no attribute split" :=
  rfl

/-- **C9.** For every successfully laid-out repetitions string:
the number of emitted segments equals the number of annotated ranges;
with start and end equal, a strictly higher level gives a strictly more
negative `x`; and every range with `end ≥ start` gets `y_start > y_end`. -/
theorem claim_C9_segment_shape (w : Line → Nat → ℚ) (pagesize0 margin : ℚ)
    (d : Nat) (h : HymnData) (s : String) (bars : List Entry)
    (segs : List Segment)
    (hd : 6 ≤ d)
    (hrep : h.repetitions = some s)
    (hbars : get_entries_with_levels s = Except.ok bars)
    (hsegs : buildVerticalLines w pagesize0 margin d h = Except.ok segs) :
    segs.length = bars.length
    ∧ (∀ j k : Nat, j < bars.length → k < bars.length →
        (bars.getD j ⟨0, 0, 0⟩).bstart = (bars.getD k ⟨0, 0, 0⟩).bstart →
        (bars.getD j ⟨0, 0, 0⟩).bend = (bars.getD k ⟨0, 0, 0⟩).bend →
        (bars.getD j ⟨0, 0, 0⟩).level < (bars.getD k ⟨0, 0, 0⟩).level →
        (segs.getD k ⟨0, 0, 0⟩).x < (segs.getD j ⟨0, 0, 0⟩).x)
    ∧ (∀ j : Nat, j < bars.length →
        (bars.getD j ⟨0, 0, 0⟩).bstart ≤ (bars.getD j ⟨0, 0, 0⟩).bend →
        (segs.getD j ⟨0, 0, 0⟩).y_end < (segs.getD j ⟨0, 0, 0⟩).y_start) := by
  have hsegs2 := buildVL_ok w pagesize0 margin d h s bars hrep hbars
  rw [hsegs] at hsegs2
  have hseq := Except.ok.inj hsegs2
  subst hseq
  have hrf := resize_factor_pos w pagesize0 margin d h.text hd
  refine ⟨by simp, ?_, ?_⟩
  · intro j k hj hk _hs _he hl
    rw [getD_map_lt bars _ j hj, getD_map_lt bars _ k hk,
      segmentOfBar_x, segmentOfBar_x]
    apply neg_lt_neg
    apply mul_lt_mul_of_pos_right ?_ (by linarith : (0 : ℚ) < 6 * resize_factor w pagesize0 margin d h.text)
    exact_mod_cast hl
  · intro j hj hbe
    rw [getD_map_lt bars _ j hj, segmentOfBar_y_start, segmentOfBar_y_end]
    have hse : (((bars.getD j ⟨0, 0, 0⟩).bstart - 1 : Int) : ℚ)
        ≤ (((bars.getD j ⟨0, 0, 0⟩).bend - 1 : Int) : ℚ) := by
      exact_mod_cast (by omega : (bars.getD j ⟨0, 0, 0⟩).bstart - 1
        ≤ (bars.getD j ⟨0, 0, 0⟩).bend - 1)
    have hbb : ((count_blank_lines h.text 0 ((bars.getD j ⟨0, 0, 0⟩).bstart - 1) : Nat) : ℚ)
        ≤ ((count_blank_lines h.text 0 ((bars.getD j ⟨0, 0, 0⟩).bend - 1) : Nat) : ℚ) := by
      exact_mod_cast count_blank_mono h.text 0
        (by omega : (bars.getD j ⟨0, 0, 0⟩).bstart - 1
          ≤ (bars.getD j ⟨0, 0, 0⟩).bend - 1)
    have e1 : (0 : ℚ) < 7 * resize_factor w pagesize0 margin d h.text := by linarith
    have e2 : (0 : ℚ) < 9 * resize_factor w pagesize0 margin d h.text := by linarith
    have e3 : (0 : ℚ) < 8.5 * resize_factor w pagesize0 margin d h.text := by
      nlinarith
    have k1 := mul_le_mul_of_nonneg_right hse (le_of_lt e1)
    have k2 := mul_le_mul_of_nonneg_right hse (le_of_lt e2)
    have k3 := mul_le_mul_of_nonneg_right hbb (le_of_lt e3)
    have k4 : ((((bars.getD j ⟨0, 0, 0⟩).bend - 1 : Int) : ℚ) + 1)
          * (7 * resize_factor w pagesize0 margin d h.text)
        = (((bars.getD j ⟨0, 0, 0⟩).bend - 1 : Int) : ℚ)
            * (7 * resize_factor w pagesize0 margin d h.text)
          + 7 * resize_factor w pagesize0 margin d h.text := by ring
    linarith

/-- Witness for C9: `"1-2,1-2"` on the two-line text `"a\nb"` with
`resize_factor = 1` — the second bar (level 2) sits strictly left of
the first (level 1). -/
theorem claim_C9_witness :
    (([⟨-6, -12, -35⟩, ⟨-12, -12, -35⟩] : List Segment).getD 1 ⟨0, 0, 0⟩).x
      < (([⟨-6, -12, -35⟩, ⟨-12, -12, -35⟩] : List Segment).getD 0 ⟨0, 0, 0⟩).x := by
  have hfs : adjusted_font_size (fun _ s => (s : ℚ)) 42 0 14 "a\nb" = 14 := by
    have h28 : (42 : ℚ) - 2 * 0 - 14 = 28 := by norm_num
    show fitFont (fun _ s => (s : ℚ)) ((42 : ℚ) - 2 * 0 - 14) 14 "a\nb" = 14
    rw [h28]
    decide
  have hrf : resize_factor (fun _ s => (s : ℚ)) 42 0 14 "a\nb" = 1 := by
    unfold resize_factor
    rw [hfs]
    norm_num
  have hcb0 : count_blank_lines "a\nb" 0 0 = 0 := by decide
  have hcb1 : count_blank_lines "a\nb" 0 1 = 0 := by decide
  have hseg1 : segmentOfBar "a\nb" 1 ⟨1, 2, 1⟩ = ⟨-6, -12, -35⟩ := by
    simp only [segmentOfBar]
    rw [Segment.mk.injEq]
    norm_num [hcb0, hcb1]
  have hseg2 : segmentOfBar "a\nb" 1 ⟨1, 2, 2⟩ = ⟨-12, -12, -35⟩ := by
    simp only [segmentOfBar]
    rw [Segment.mk.injEq]
    norm_num [hcb0, hcb1]
  have hent : get_entries_with_levels "1-2,1-2"
      = Except.ok [⟨1, 2, 1⟩, ⟨1, 2, 2⟩] := by decide
  have hsegs : buildVerticalLines (fun _ s => (s : ℚ)) 42 0 14
      ⟨"a\nb", some "1-2,1-2"⟩
      = Except.ok [⟨-6, -12, -35⟩, ⟨-12, -12, -35⟩] := by
    rw [buildVL_ok (fun _ s => (s : ℚ)) 42 0 14 ⟨"a\nb", some "1-2,1-2"⟩
      "1-2,1-2" [⟨1, 2, 1⟩, ⟨1, 2, 2⟩] rfl hent]
    show Except.ok ([⟨1, 2, 1⟩, ⟨1, 2, 2⟩].map
      (segmentOfBar "a\nb" (resize_factor (fun _ s => (s : ℚ)) 42 0 14 "a\nb"))) = _
    rw [hrf]
    simp only [List.map_cons, List.map_nil, hseg1, hseg2]
  exact (claim_C9_segment_shape (fun _ s => (s : ℚ)) 42 0 14
      ⟨"a\nb", some "1-2,1-2"⟩ "1-2,1-2" [⟨1, 2, 1⟩, ⟨1, 2, 2⟩]
      [⟨-6, -12, -35⟩, ⟨-12, -12, -35⟩]
      (by decide) rfl hent hsegs).2.1 0 1
    (by decide) (by decide) (by decide) (by decide) (by decide)

/-- **C2, counterexample.** With `resize_factor = 1/2` (fitted size 7,
default 14), the code emits `y_start = -8 + (-4)·(1/2) = -10` for a bar
starting at line 1 of the one-line text `"a"` (no blank lines); the
claim's formula, in which the vertical top padding is its base value
`-12` times `resize_factor`, gives `-12·(1/2) = -6` instead.  The top
padding is affine in `resize_factor`, not proportional to it. -/
theorem claim_C2_counterexample :
    buildVerticalLines (fun _ s => (s : ℚ)) 21 0 14 ⟨"a", some "1-1"⟩
        = Except.ok [⟨-3, -10, -27/2⟩]
      ∧ (-10 : ℚ)
        ≠ (-12) * ((7 : ℚ) / 14)
          - ((0 : ℚ) * (7 * ((7 : ℚ) / 14)) + (0 : ℚ) * (9 * ((7 : ℚ) / 14)))
          - (0 : ℚ) * (8.5 * ((7 : ℚ) / 14)) := by
  constructor
  · have hfs : adjusted_font_size (fun _ s => (s : ℚ)) 21 0 14 "a" = 7 := by
      have h7 : (21 : ℚ) - 2 * 0 - 14 = 7 := by norm_num
      show fitFont (fun _ s => (s : ℚ)) ((21 : ℚ) - 2 * 0 - 14) 14 "a" = 7
      rw [h7]
      decide
    have hrf : resize_factor (fun _ s => (s : ℚ)) 21 0 14 "a" = 1/2 := by
      unfold resize_factor
      rw [hfs]
      norm_num
    have hcb : count_blank_lines "a" 0 0 = 0 := by decide
    have hseg : segmentOfBar "a" (1/2) ⟨1, 1, 1⟩ = ⟨-3, -10, -27/2⟩ := by
      simp only [segmentOfBar]
      rw [Segment.mk.injEq]
      norm_num [hcb]
    have hent : get_entries_with_levels "1-1" = Except.ok [⟨1, 1, 1⟩] := by decide
    rw [buildVL_ok (fun _ s => (s : ℚ)) 21 0 14 ⟨"a", some "1-1"⟩
      "1-1" [⟨1, 1, 1⟩] rfl hent]
    show Except.ok ([⟨1, 1, 1⟩].map
      (segmentOfBar "a" (resize_factor (fun _ s => (s : ℚ)) 21 0 14 "a"))) = _
    rw [hrf]
    simp only [List.map_cons, List.map_nil, hseg]
  · norm_num

/-- **C2, amended.** The emitted coordinates follow the claim's three
formulas with four of the five layout constants fully scaled by
`resize_factor` (`one_line = 7·rf`, `inter_line = 9·rf`,
`blank_line = 8.5·rf`, `level_spacing = 6·rf`), but the vertical top
padding is `-8 + (-4·rf)` — only its `-4` part is scaled — rather than
a base value times `resize_factor`. -/
theorem claim_C2_amended (w : Line → Nat → ℚ) (pagesize0 margin : ℚ) (d : Nat)
    (h : HymnData) (s : String) (bars : List Entry)
    (hrep : h.repetitions = some s)
    (hbars : get_entries_with_levels s = Except.ok bars)
    (j : Nat) (hj : j < bars.length) :
    ∃ segs, buildVerticalLines w pagesize0 margin d h = Except.ok segs
      ∧ (segs.getD j ⟨0, 0, 0⟩).y_start
          = (-8 + (-4 * resize_factor w pagesize0 margin d h.text))
            - ((((bars.getD j ⟨0, 0, 0⟩).bstart - 1 : Int) : ℚ)
                * (7 * resize_factor w pagesize0 margin d h.text)
               + (((bars.getD j ⟨0, 0, 0⟩).bstart - 1 : Int) : ℚ)
                * (9 * resize_factor w pagesize0 margin d h.text))
            - ((count_blank_lines h.text 0 ((bars.getD j ⟨0, 0, 0⟩).bstart - 1) : ℚ)
                * (8.5 * resize_factor w pagesize0 margin d h.text))
      ∧ (segs.getD j ⟨0, 0, 0⟩).y_end
          = (-8 + (-4 * resize_factor w pagesize0 margin d h.text))
            - (((((bars.getD j ⟨0, 0, 0⟩).bend - 1 : Int) : ℚ) + 1)
                * (7 * resize_factor w pagesize0 margin d h.text)
               + (((bars.getD j ⟨0, 0, 0⟩).bend - 1 : Int) : ℚ)
                * (9 * resize_factor w pagesize0 margin d h.text))
            - ((count_blank_lines h.text 0 ((bars.getD j ⟨0, 0, 0⟩).bend - 1) : ℚ)
                * (8.5 * resize_factor w pagesize0 margin d h.text))
      ∧ (segs.getD j ⟨0, 0, 0⟩).x
          = -(((bars.getD j ⟨0, 0, 0⟩).level : ℚ)
              * (6 * resize_factor w pagesize0 margin d h.text)) := by
  refine ⟨_, buildVL_ok w pagesize0 margin d h s bars hrep hbars, ?_, ?_, ?_⟩
  · rw [getD_map_lt bars _ j hj, segmentOfBar_y_start]
  · rw [getD_map_lt bars _ j hj, segmentOfBar_y_end]
  · rw [getD_map_lt bars _ j hj, segmentOfBar_x]

/-- Witness for C2 (amended), at the counterexample's concrete hymn. -/
theorem claim_C2_witness :
    ∃ segs, buildVerticalLines (fun _ s => (s : ℚ)) 21 0 14
        ⟨"a", some "1-1"⟩ = Except.ok segs := by
  obtain ⟨segs, h1, _⟩ := claim_C2_amended (fun _ s => (s : ℚ)) 21 0 14
    ⟨"a", some "1-1"⟩ "1-1" [⟨1, 1, 1⟩] rfl (by decide) 0 (by decide)
  exact ⟨segs, h1⟩

end HymnPdf
